import Mathlib

set_option maxHeartbeats 1000000

/-!  Verification of the service-map DAG tool (`app.py`): a shallow embedding
of `generate_dag` and `analyze_root_cause` together with proofs of the
specified properties.

Randomness is modelled as a stream `rand : Nat → Nat` of draws together with a
position counter threaded through the loops; `random.choice(seq)` reads one
draw and selects `seq[draw % len(seq)]`, and `random.randint(0, n)` reads one
draw and yields `draw % (n+1)`.  A Python `IndexError` (raised by
`random.choice` on an empty sequence, or by indexing a list out of range) is
modelled with `Except`.  Python's slice `nodes[max(0, i-d):i]` is
`(nodes.take i).drop (i - d)` — truncated `Nat` subtraction performs the
`max(0, ·)` clamp. -/

inductive PyErr : Type where
  | indexError : PyErr

/-- Python's `string.ascii_uppercase`. -/
def letters : List Char := "ABCDEFGHIJKLMNOPQRSTUVWXYZ".toList

/-- A directed graph as built by `generate_dag`: the insertion-ordered node
list, the insertion-ordered edge list (`nx.DiGraph.add_edge` is a no-op on a
duplicate edge), and the per-node `layer` attribute as an association list. -/
structure Graph : Type where
  nodes : List Char
  edges : List (Char × Char)
  layers : List (Char × Nat)

/-- The effect of `G.add_edge(u, v)` on the edge list: append the edge unless
it is already present (both endpoints always already exist as nodes here). -/
def addEdge (es : List (Char × Char)) (e : Char × Char) : List (Char × Char) :=
  if e ∈ es then es else es ++ [e]

/-- Python's `random.choice(l)`: `IndexError` on an empty sequence, otherwise
the element at the drawn index. -/
def pyChoice (l : List Char) (r : Nat) : Except PyErr Char :=
  match l with
  | [] => .error .indexError
  | _ :: _ => .ok (l.getD (r % l.length) 'A')

/-- Python's `l[i]` on a list of characters: `IndexError` out of range. -/
def pyIndex (l : List Char) (i : Nat) : Except PyErr Char :=
  if i < l.length then .ok (l.getD i 'A') else .error .indexError

/-- The backbone pass of `generate_dag` (app.py lines 15–18): for each `i` in
`range(1, node_count)`, `possible_parents = nodes[max(0, i-max_depth):i]`,
`parent = random.choice(possible_parents)`, `G.add_edge(parent, nodes[i])`.
The loop is run over the explicit index list, threading the edge list and the
random-stream position. -/
def backboneLoop (nodes : List Char) (d : Nat) (rand : Nat → Nat) :
    List Nat → List (Char × Char) → Nat → Except PyErr (List (Char × Char) × Nat)
  | [], es, pos => .ok (es, pos)
  | i :: rest, es, pos =>
      match pyChoice ((nodes.take i).drop (i - d)) (rand pos) with
      | .error e => .error e
      | .ok parent =>
        match pyIndex nodes i with
        | .error e => .error e
        | .ok ni => backboneLoop nodes d rand rest (addEdge es (parent, ni)) (pos + 1)

/-- The inner loop of the extra-edge pass (app.py lines 24–28): repeat
`num_extra_edges` times: if `possible_children` is nonempty, draw a child,
add the edge `nodes[i] → child`, and remove the child from the pool. -/
def extraInner (nodes : List Char) (i : Nat) (rand : Nat → Nat) :
    Nat → List Char → List (Char × Char) → Nat → Except PyErr (List (Char × Char) × Nat)
  | 0, _, es, pos => .ok (es, pos)
  | k + 1, pc, es, pos =>
      if pc.isEmpty then extraInner nodes i rand k pc es pos
      else
        match pyChoice pc (rand pos) with
        | .error e => .error e
        | .ok child =>
          match pyIndex nodes i with
          | .error e => .error e
          | .ok ni =>
              extraInner nodes i rand k (pc.erase child) (addEdge es (ni, child)) (pos + 1)

/-- The outer loop of the extra-edge pass (app.py lines 21–28): for each `i`
in `range(node_count)`, `possible_children = nodes[i+1:min(node_count, i+max_depth+1)]`,
`num_extra_edges = random.randint(0, len(possible_children))`, then the inner
loop. -/
def extraLoop (nodes : List Char) (n d : Nat) (rand : Nat → Nat) :
    List Nat → List (Char × Char) → Nat → Except PyErr (List (Char × Char) × Nat)
  | [], es, pos => .ok (es, pos)
  | i :: rest, es, pos =>
      match extraInner nodes i rand
          (rand pos % (((nodes.take (min n (i + d + 1))).drop (i + 1)).length + 1))
          ((nodes.take (min n (i + d + 1))).drop (i + 1)) es (pos + 1) with
      | .error e => .error e
      | .ok r => extraLoop nodes n d rand rest r.1 r.2

/-- The remaining nodes with zero in-degree from the remaining nodes — the
next generation in Kahn-style peeling. -/
def zeroOf (E : List (Char × Char)) (rem : List Char) : List Char :=
  rem.filter (fun v => rem.all (fun u => !(decide ((u, v) ∈ E))))

/-- `nx.topological_generations(G)`, Kahn-style peeling: the first generation
is the set of remaining nodes with no incoming edge from a remaining node; it
is removed and the process repeats.  A fuel argument (the node count at the
call site, enough because each round removes at least one node of an acyclic
graph) makes the recursion structural. -/
def topological_generations (E : List (Char × Char)) : Nat → List Char → List (List Char)
  | 0, _ => []
  | fuel + 1, rem =>
      if (zeroOf E rem).isEmpty then []
      else zeroOf E rem ::
        topological_generations E fuel (rem.filter (fun x => !(decide (x ∈ zeroOf E rem))))

/-- The layer-assignment loop of `generate_dag` (app.py lines 30–33):
`for i, generation in enumerate(generations): for node in generation:
G.nodes[node]['layer'] = i`, as an association list. -/
def layersFrom : Nat → List (List Char) → List (Char × Nat)
  | _, [] => []
  | i, gen :: rest => gen.map (fun c => (c, i)) ++ layersFrom (i + 1) rest

/-- `generate_dag(node_count, max_depth)` (app.py lines 9–35): backbone pass,
extra-edge pass, then layer assignment from the topological generations. -/
def generate_dag (node_count max_depth : Nat) (rand : Nat → Nat) : Except PyErr Graph :=
  let nodes := letters.take node_count
  match backboneLoop nodes max_depth rand (List.range' 1 (node_count - 1)) [] 0 with
  | .error e => .error e
  | .ok r1 =>
    match extraLoop nodes node_count max_depth rand (List.range node_count) r1.1 r1.2 with
    | .error e => .error e
    | .ok r2 =>
        .ok ⟨nodes, r2.1, layersFrom 0 (topological_generations r2.1 nodes.length nodes)⟩

/-- The successor list of `u`, in edge-insertion order (the iteration order of
`nx.DiGraph` adjacency). -/
def succs (es : List (Char × Char)) (u : Char) : List Char :=
  (es.filter (fun e => decide (e.1 = u))).map (fun e => e.2)

/-- Depth-first enumeration of the simple directed paths from `u` to `t` that
avoid `visited`, as performed by `nx.all_simple_paths`.  Fuel bounds the path
length; at the call site it is the node count, which covers every simple
path. -/
def dfsPaths (es : List (Char × Char)) : Nat → List Char → Char → Char → List (List Char)
  | 0, _, _, _ => []
  | fuel + 1, visited, u, t =>
      if u = t then [[t]]
      else ((succs es u).filter (fun v => !(decide (v ∈ visited)))).flatMap
        (fun v => (dfsPaths es fuel (u :: visited) v t).map (fun p => u :: p))

/-- `list(nx.all_simple_paths(G, s, t))`: empty when `s == t` (networkx
returns an empty generator in that case), otherwise the DFS enumeration.
Since labels are single characters, `"".join(path)` is the path itself as a
list of characters, so paths double as their `PathString`s. -/
def all_simple_paths (G : Graph) (s t : Char) : List (List Char) :=
  if s = t then [] else dfsPaths G.edges G.nodes.length [] s t

/-- Step 1 of `analyze_root_cause` (app.py lines 59–66): for each `i, start`
in `enumerate(issue_nodes)` and each `end` in `issue_nodes[i+1:]`, append
every simple path from `start` to `end` to the flat candidate list. -/
def collectPaths (G : Graph) : List Char → List (List Char)
  | [] => []
  | s :: rest => rest.flatMap (fun t => all_simple_paths G s t) ++ collectPaths G rest

/-- Whether `p` is a leading segment of `q` (character-by-character). -/
def leads : List Char → List Char → Bool
  | [], _ => true
  | _ :: _, [] => false
  | a :: p, b :: q => decide (a = b) && leads p q

/-- Python's substring test `p in q` on path strings: `p` occurs contiguously
in `q` (the empty string occurs in everything). -/
def isSub (p : List Char) : List Char → Bool
  | [] => leads p []
  | b :: q => leads p (b :: q) || isSub p q

/-- The counter pass of the filter loop (app.py lines 75–82): scan the
remaining queue; on the first element containing `sp` stop with
`not_in_count` frozen, otherwise count the element in both counters. -/
def countScan (sp : List Char) : List (List Char) → Nat × Nat
  | [] => (0, 0)
  | q :: qs =>
      if isSub sp q then (0, 1)
      else ((countScan sp qs).1 + 1, (countScan sp qs).2 + 1)

/-- The queue filter of Step 2 (app.py lines 73–84): pop the front element
`spath`, keep it iff `not_in_count == all_path_count` after scanning the
remaining queue, and continue on the rest; one iteration per original
element. -/
def queueFilter : List (List Char) → List (List Char)
  | [] => []
  | p :: rest =>
      (if (countScan p rest).1 = (countScan p rest).2 then [p] else []) ++ queueFilter rest

/-- Step 2 of `analyze_root_cause` (app.py lines 68–84): the single-candidate
shortcut (`all_paths[0]` alone) when exactly one path was collected, otherwise
the queue filter. -/
def rootCausePaths (G : Graph) (issue_nodes : List Char) : List (List Char) :=
  let all_paths := collectPaths G issue_nodes
  if all_paths.length = 1 then [all_paths.getD 0 []] else queueFilter all_paths

/-- One `root_cause_counts[node] += 1` on the association list modelling the
insertion-ordered `defaultdict(int)`: bump an existing entry in place, or
append a fresh entry with count 1. -/
def bump (acc : List (Char × Nat)) (a : Char) : List (Char × Nat) :=
  match acc with
  | [] => [(a, 1)]
  | (b, k) :: t => if b = a then (b, k + 1) :: t else (b, k) :: bump t a

/-- Step 3 of `analyze_root_cause` (app.py lines 87–90): count the terminal
character `path[-1]` of each surviving path, entries in first-seen order. -/
def countOcc (paths : List (List Char)) : List (Char × Nat) :=
  paths.foldl (fun acc p => bump acc (p.getLastD 'A')) []

/-- Insertion step of a stable descending sort on the count: the new element
goes in front of the first entry whose count is `≤` its own, so earlier
entries win ties.  `sorted(..., key=lambda x: x[1], reverse=True)` is a stable
sort, and a stable sort's output is the unique sorted permutation preserving
the relative order of equal keys, so this insertion sort computes it. -/
def insertDesc (x : Char × Nat) : List (Char × Nat) → List (Char × Nat)
  | [] => [x]
  | y :: ys => if y.2 ≤ x.2 then x :: y :: ys else y :: insertDesc x ys

/-- Stable descending sort by count (Step 4, app.py line 93). -/
def sortDesc : List (Char × Nat) → List (Char × Nat)
  | [] => []
  | x :: xs => insertDesc x (sortDesc xs)

/-- `analyze_root_cause(G, issue_nodes)` (app.py lines 54–95). -/
def analyze_root_cause (G : Graph) (issue_nodes : List Char) : List (Char × Nat) :=
  sortDesc (countOcc (rootCausePaths G issue_nodes))

/-! ### Helper lemmas about the elementary operations -/

theorem mem_addEdge {es : List (Char × Char)} {e x : Char × Char} :
    x ∈ addEdge es e ↔ x ∈ es ∨ x = e := by
  unfold addEdge
  split
  · rename_i h
    constructor
    · exact Or.inl
    · rintro (hx | rfl)
      · exact hx
      · exact h
  · simp [List.mem_append]

theorem pyChoice_ok_mem : ∀ {l : List Char} {r x : _}, pyChoice l r = .ok x → x ∈ l
  | [], _, _, h => by simp [pyChoice] at h
  | a :: t, r, x, h => by
    have hx : (a :: t).getD (r % (a :: t).length) 'A' = x := by
      simpa [pyChoice] using h
    have hlt : r % (a :: t).length < (a :: t).length := Nat.mod_lt _ (by simp)
    rw [List.getD_eq_getElem _ _ hlt] at hx
    exact hx ▸ List.getElem_mem hlt

theorem pyIndex_ok {l : List Char} {i : Nat} {x : Char} (h : pyIndex l i = .ok x) :
    i < l.length ∧ l.getD i 'A' = x := by
  unfold pyIndex at h
  split at h
  · rename_i hlt
    injection h with h
    exact ⟨hlt, h⟩
  · exact Except.noConfusion h

theorem getLastD_eq_of_ne_nil : ∀ {l : List Char}, l ≠ [] → ∀ x y : Char, l.getLastD x = l.getLastD y
  | [], h, _, _ => absurd rfl h
  | _ :: _, _, _, _ => by rw [List.getLastD_cons, List.getLastD_cons]

/-! ### The queue filter (Step 2) -/

theorem countScan_fst_eq_snd_iff (p : List Char) :
    ∀ l : List (List Char),
      ((countScan p l).1 = (countScan p l).2 ↔ l.all (fun q => !(isSub p q)) = true)
  | [] => by simp [countScan]
  | q :: qs => by
    by_cases h : isSub p q = true
    · simp [countScan, h]
    · have ih := countScan_fst_eq_snd_iff p qs
      simp [countScan, h, ih]

theorem queueFilter_eq : ∀ S : List (List Char),
    queueFilter S =
      ((List.range S.length).filter
        (fun k => (S.drop (k + 1)).all (fun q => !(isSub (S.getD k []) q)))).map
        (fun k => S.getD k [])
  | [] => by simp [queueFilter]
  | p :: rest => by
    have ih := queueFilter_eq rest
    rw [queueFilter, List.length_cons, List.range_succ_eq_map, List.filter_cons]
    simp only [Nat.zero_add, List.drop_one, List.tail_cons, List.getD_cons_zero,
      List.filter_map, Function.comp_def, List.drop_succ_cons, List.getD_cons_succ,
      List.drop_zero, Nat.succ_eq_add_one]
    by_cases hall : rest.all (fun q => !(isSub p q)) = true
    · rw [if_pos ((countScan_fst_eq_snd_iff p rest).mpr hall), if_pos hall]
      simp only [List.map_cons, List.getD_cons_zero, List.map_map, Function.comp_def,
        List.getD_cons_succ]
      rw [ih]
      rfl
    · rw [if_neg (fun hc => hall ((countScan_fst_eq_snd_iff p rest).mp hc)), if_neg hall]
      simp only [List.map_map, Function.comp_def, List.getD_cons_succ]
      rw [ih]
      rfl

/-- C1: in Step 2 of analyze, element `S[k]` of the collected candidate list
survives the queue filter iff no later-discovered element `S[m]`, `m > k`,
contains it as a substring (the surviving elements keep their order), and on
`["AB", "ABC", "DE"]` the filter discards `"AB"` and returns exactly
`["ABC", "DE"]`. -/
theorem queueFilter_survives_iff (S : List (List Char)) (h2 : 2 ≤ S.length) :
    (queueFilter S =
      ((List.range S.length).filter
        (fun k => (S.drop (k + 1)).all (fun q => !(isSub (S.getD k []) q)))).map
        (fun k => S.getD k []))
    ∧ queueFilter ["AB".toList, "ABC".toList, "DE".toList] = ["ABC".toList, "DE".toList] :=
  ⟨queueFilter_eq S, by decide⟩

theorem queueFilter_survives_iff_witness :
    (queueFilter ["AB".toList, "ABC".toList, "DE".toList] =
      ((List.range (["AB".toList, "ABC".toList, "DE".toList] : List (List Char)).length).filter
        (fun k => ((["AB".toList, "ABC".toList, "DE".toList] : List (List Char)).drop (k + 1)).all
          (fun q => !(isSub ((["AB".toList, "ABC".toList, "DE".toList] : List (List Char)).getD k []) q)))).map
        (fun k => (["AB".toList, "ABC".toList, "DE".toList] : List (List Char)).getD k []))
    ∧ queueFilter ["AB".toList, "ABC".toList, "DE".toList] = ["ABC".toList, "DE".toList] :=
  queueFilter_survives_iff ["AB".toList, "ABC".toList, "DE".toList] (by decide)

/-! ### The single-candidate shortcut (C10) -/

/-- The alternative Step 2 named by the refinement claim: the general queue
filter applied to every candidate list, the `|S| == 1` shortcut removed. -/
def rootCausePathsNoShortcut (G : Graph) (issue_nodes : List Char) : List (List Char) :=
  queueFilter (collectPaths G issue_nodes)

/-- C10: the branch of analyze that keeps the single path when exactly one
candidate was collected is equivalent to running the general queue filter on
that singleton list; a lone queue element is always kept (empty remaining
queue). -/
theorem rootCausePaths_shortcut_equiv (G : Graph) (ns : List Char) :
    rootCausePaths G ns = rootCausePathsNoShortcut G ns
    ∧ ∀ p : List Char, queueFilter [p] = [p] := by
  constructor
  · unfold rootCausePaths rootCausePathsNoShortcut
    by_cases h : (collectPaths G ns).length = 1
    · obtain ⟨a, ha⟩ := List.length_eq_one.mp h
      simp [ha, queueFilter, countScan]
    · simp [h]
  · intro p
    simp [queueFilter, countScan]

/-! ### Path collection (Step 1, C3) and the empty result (C7) -/

/-- The ordered index pairs `(i, j)`, `i < j < n`, in the iteration order of
the nested loop of Step 1 (outer index ascending, inner index ascending). -/
def pairUp : Nat → List (Nat × Nat)
  | 0 => []
  | m + 1 =>
      (List.range m).map (fun j => (0, j + 1)) ++
        (pairUp m).map (fun ij => (ij.1 + 1, ij.2 + 1))

theorem mem_pairUp : ∀ {n i j : Nat}, (i, j) ∈ pairUp n ↔ i < j ∧ j < n
  | 0, i, j => by simp [pairUp]
  | m + 1, i, j => by
    have ih : ∀ i' j' : Nat, (i', j') ∈ pairUp m ↔ i' < j' ∧ j' < m :=
      fun i' j' => mem_pairUp
    simp only [pairUp, List.mem_append, List.mem_map, List.mem_range, Prod.mk.injEq,
      Prod.exists]
    constructor
    · rintro (⟨k, hk, rfl, rfl⟩ | ⟨a, b, hab, rfl, rfl⟩)
      · omega
      · have := (ih a b).mp hab
        omega
    · rintro ⟨hij, hj⟩
      rcases Nat.eq_zero_or_pos i with rfl | hi
      · exact Or.inl ⟨j - 1, by omega, rfl, by omega⟩
      · exact Or.inr ⟨i - 1, j - 1, (ih _ _).mpr (by omega), by omega, by omega⟩

theorem flatMap_eq_range_getD (f : Char → List (List Char)) :
    ∀ l : List Char, l.flatMap f = (List.range l.length).flatMap (fun k => f (l.getD k 'A'))
  | [] => by simp
  | a :: t => by
    have ih := flatMap_eq_range_getD f t
    rw [List.flatMap_cons, List.length_cons, List.range_succ_eq_map, List.flatMap_cons,
      List.flatMap_map]
    simp only [List.getD_cons_zero, List.getD_cons_succ]
    rw [ih]

theorem collectPaths_eq (G : Graph) : ∀ ns : List Char,
    collectPaths G ns =
      (pairUp ns.length).flatMap
        (fun ij => all_simple_paths G (ns.getD ij.1 'A') (ns.getD ij.2 'A'))
  | [] => by simp [collectPaths, pairUp]
  | s :: rest => by
    have ih := collectPaths_eq G rest
    rw [collectPaths, List.length_cons]
    show _ = (pairUp (rest.length + 1)).flatMap _
    rw [pairUp, List.flatMap_append, List.flatMap_map, List.flatMap_map]
    simp only [List.getD_cons_zero, List.getD_cons_succ]
    rw [← flatMap_eq_range_getD (fun t => all_simple_paths G s t) rest, ih]

/-- C3: Step 1 collects, in loop order, exactly the simple directed paths from
`issueNodes[i]` to `issueNodes[j]` over the ordered index pairs `i < j` of the
caller-supplied list (never symmetrized: a pair whose paths run opposite to
the list order contributes nothing, and a pair with no path contributes the
empty list rather than an error). -/
theorem collectPaths_ordered_pairs (G : Graph) (ns : List Char) :
    (collectPaths G ns =
      (pairUp ns.length).flatMap
        (fun ij => all_simple_paths G (ns.getD ij.1 'A') (ns.getD ij.2 'A')))
    ∧ (∀ i j : Nat, (i, j) ∈ pairUp ns.length ↔ i < j ∧ j < ns.length)
    ∧ ∀ p ∈ collectPaths G ns, ∃ i j, i < j ∧ j < ns.length ∧
        p ∈ all_simple_paths G (ns.getD i 'A') (ns.getD j 'A') := by
  refine ⟨collectPaths_eq G ns, fun i j => mem_pairUp, fun p hp => ?_⟩
  rw [collectPaths_eq G ns] at hp
  obtain ⟨ij, hij, hpij⟩ := List.mem_flatMap.mp hp
  obtain ⟨hlt, hj⟩ := mem_pairUp.mp (show (ij.1, ij.2) ∈ pairUp ns.length from hij)
  exact ⟨ij.1, ij.2, hlt, hj, hpij⟩

/-- C7: analyze never fails on valid input; when `issueNodes` has fewer than
two elements, or no candidate path survives the filter, it returns the empty
result. -/
theorem analyze_root_cause_empty (G : Graph) (ns : List Char)
    (hv : ∀ x ∈ ns, x ∈ G.nodes)
    (h : ns.length < 2 ∨ rootCausePaths G ns = []) :
    analyze_root_cause G ns = [] := by
  have key : rootCausePaths G ns = [] → analyze_root_cause G ns = [] := by
    intro h0
    unfold analyze_root_cause
    rw [h0]
    rfl
  rcases h with h | h
  · apply key
    match ns, h with
    | [], _ => rfl
    | [x], _ => rfl
    | x :: y :: t, h => simp at h; omega
  · exact key h

theorem analyze_root_cause_empty_witness :
    analyze_root_cause ⟨['A'], [], []⟩ ['A'] = [] :=
  analyze_root_cause_empty ⟨['A'], [], []⟩ ['A'] (by decide) (Or.inl (by decide))

/-! ### The ranking step (C6) and well-formedness of the result (C9) -/

/-- The subsequence of first occurrences of a list of characters, used to
state in which order `countOcc` creates its entries. -/
def firstOccs : List Char → List Char
  | [] => []
  | a :: l => a :: firstOccs (l.filter (fun b => !(decide (b = a))))
termination_by l => l.length
decreasing_by
  simp only [List.length_cons]
  exact Nat.lt_succ_of_le (List.length_filter_le _ _)

theorem firstOccs_subset : ∀ l : List Char, firstOccs l ⊆ l
  | [] => by simp [firstOccs]
  | a :: l => by
    rw [firstOccs]
    intro x hx
    rcases List.mem_cons.mp hx with rfl | hx
    · exact List.mem_cons_self x l
    · exact List.mem_cons_of_mem a
        (List.mem_of_mem_filter (firstOccs_subset _ hx))
termination_by l => l.length
decreasing_by
  simp only [List.length_cons]
  exact Nat.lt_succ_of_le (List.length_filter_le _ _)

theorem firstOccs_nodup : ∀ l : List Char, (firstOccs l).Nodup
  | [] => by simp [firstOccs]
  | a :: l => by
    rw [firstOccs]
    refine List.nodup_cons.mpr ⟨fun ha => ?_, firstOccs_nodup _⟩
    have := firstOccs_subset _ ha
    simp [List.mem_filter] at this
termination_by l => l.length
decreasing_by
  simp only [List.length_cons]
  exact Nat.lt_succ_of_le (List.length_filter_le _ _)

theorem bump_keys (a : Char) : ∀ acc : List (Char × Nat),
    (bump acc a).map Prod.fst =
      if a ∈ acc.map Prod.fst then acc.map Prod.fst else acc.map Prod.fst ++ [a]
  | [] => by simp [bump]
  | (b, k) :: t => by
    by_cases h : b = a
    · subst h
      simp [bump]
    · have ih := bump_keys a t
      simp only [bump, if_neg h, List.map_cons, ih]
      by_cases ha : a ∈ t.map Prod.fst
      · simp [ha, Ne.symm h]
      · simp [ha, Ne.symm h]

theorem bump_counts_pos (a : Char) : ∀ acc : List (Char × Nat),
    (∀ p ∈ acc, 1 ≤ p.2) → ∀ p ∈ bump acc a, 1 ≤ p.2
  | [], _, p, hp => by
    simp only [bump, List.mem_singleton] at hp
    simp [hp]
  | (b, k) :: t, hacc, p, hp => by
    unfold bump at hp
    split at hp
    · rcases List.mem_cons.mp hp with h1 | h1
      · rw [h1]
        simp
      · exact hacc p (List.mem_cons_of_mem _ h1)
    · rcases List.mem_cons.mp hp with h1 | h1
      · rw [h1]
        exact hacc (b, k) (List.mem_cons_self _ _)
      · exact bump_counts_pos a t (fun q hq => hacc q (List.mem_cons_of_mem _ hq)) p h1

theorem foldl_bump_keys : ∀ (t : List Char) (acc : List (Char × Nat)),
    (t.foldl bump acc).map Prod.fst =
      acc.map Prod.fst ++ firstOccs (t.filter (fun b => !(decide (b ∈ acc.map Prod.fst))))
  | [], acc => by simp [firstOccs]
  | a :: t, acc => by
    rw [List.foldl_cons, foldl_bump_keys t (bump acc a), bump_keys a acc]
    by_cases ha : a ∈ acc.map Prod.fst
    · rw [if_pos ha, List.filter_cons]
      simp [ha]
    · rw [if_neg ha, List.filter_cons]
      simp only [ha, decide_False, Bool.not_false, if_pos]
      rw [firstOccs, List.filter_filter]
      rw [List.append_assoc, List.singleton_append]
      congr 2
      congr 1
      apply List.filter_congr
      intro x _
      by_cases hx1 : x = a
      · simp [hx1, List.mem_append]
      · by_cases hx2 : x ∈ acc.map Prod.fst <;> simp [hx1, hx2, List.mem_append]
termination_by t => t.length

theorem foldl_bump_counts_pos : ∀ (t : List Char) (acc : List (Char × Nat)),
    (∀ p ∈ acc, 1 ≤ p.2) → ∀ p ∈ t.foldl bump acc, 1 ≤ p.2
  | [], _, hacc, p, hp => hacc p hp
  | a :: t, acc, hacc, p, hp => by
    rw [List.foldl_cons] at hp
    exact foldl_bump_counts_pos t (bump acc a) (bump_counts_pos a acc hacc) p hp

theorem countOcc_keys (paths : List (List Char)) :
    (countOcc paths).map Prod.fst = firstOccs (paths.map (fun p => p.getLastD 'A')) := by
  unfold countOcc
  rw [← List.foldl_map (fun p : List Char => p.getLastD 'A') bump]
  rw [foldl_bump_keys]
  simp

theorem countOcc_counts_pos (paths : List (List Char)) :
    ∀ p ∈ countOcc paths, 1 ≤ p.2 := by
  unfold countOcc
  rw [← List.foldl_map (fun p : List Char => p.getLastD 'A') bump]
  exact foldl_bump_counts_pos _ [] (by simp)

theorem mem_insertDesc {x z : Char × Nat} : ∀ {l : List (Char × Nat)},
    z ∈ insertDesc x l ↔ z = x ∨ z ∈ l
  | [] => by simp [insertDesc]
  | y :: ys => by
    unfold insertDesc
    split
    · exact List.mem_cons
    · rw [List.mem_cons, mem_insertDesc, List.mem_cons]
      tauto

theorem insertDesc_perm (x : Char × Nat) : ∀ l : List (Char × Nat),
    (insertDesc x l).Perm (x :: l)
  | [] => List.Perm.refl _
  | y :: ys => by
    unfold insertDesc
    split
    · exact List.Perm.refl _
    · exact ((insertDesc_perm x ys).cons y).trans (List.Perm.swap x y ys)

theorem sortDesc_perm : ∀ l : List (Char × Nat), (sortDesc l).Perm l
  | [] => List.Perm.refl _
  | x :: xs => (insertDesc_perm x (sortDesc xs)).trans ((sortDesc_perm xs).cons x)

theorem sorted_insertDesc (x : Char × Nat) : ∀ {l : List (Char × Nat)},
    List.Sorted (fun a b : Char × Nat => b.2 ≤ a.2) l →
    List.Sorted (fun a b : Char × Nat => b.2 ≤ a.2) (insertDesc x l)
  | [], _ => by simp [insertDesc]
  | y :: ys, hl => by
    unfold insertDesc
    obtain ⟨hy, hys⟩ := List.sorted_cons.mp hl
    split
    · rename_i hle
      exact List.sorted_cons.mpr ⟨fun b hb => by
        rcases List.mem_cons.mp hb with rfl | hb
        · exact hle
        · exact le_trans (hy b hb) hle, hl⟩
    · rename_i hlt
      refine List.sorted_cons.mpr ⟨fun b hb => ?_, sorted_insertDesc x hys⟩
      rcases mem_insertDesc.mp hb with rfl | hb
      · omega
      · exact hy b hb

theorem sorted_sortDesc : ∀ l : List (Char × Nat),
    List.Sorted (fun a b : Char × Nat => b.2 ≤ a.2) (sortDesc l)
  | [] => by simp [sortDesc]
  | x :: xs => sorted_insertDesc x (sorted_sortDesc xs)

theorem filter_insertDesc (v : Nat) (x : Char × Nat) : ∀ l : List (Char × Nat),
    (insertDesc x l).filter (fun p => decide (p.2 = v)) =
      (x :: l).filter (fun p => decide (p.2 = v))
  | [] => rfl
  | y :: ys => by
    unfold insertDesc
    split
    · rfl
    · rename_i hlt
      have ih := filter_insertDesc v x ys
      by_cases hy : y.2 = v
      · have hx : ¬ x.2 = v := by omega
        simp only [List.filter_cons, hy, hx, decide_True, decide_False, if_true, if_false,
          ite_true, ite_false, ih]
        simp [List.filter_cons, hx, hy]
      · simp only [List.filter_cons, hy, decide_False, ite_false, ih]
        simp [List.filter_cons, hy]

theorem filter_sortDesc (v : Nat) : ∀ l : List (Char × Nat),
    (sortDesc l).filter (fun p => decide (p.2 = v)) = l.filter (fun p => decide (p.2 = v))
  | [] => rfl
  | x :: xs => by
    rw [sortDesc, filter_insertDesc, List.filter_cons, List.filter_cons,
      filter_sortDesc v xs]

/-- C6: the result of analyze is the (label, count) list sorted by count
descending with a stable sort: filtering the result and the pre-sort count
list by any fixed count value yields the same subsequence (so equal counts
keep their relative order), and the pre-sort count list lists the terminal
labels in the order they are first encountered while scanning the surviving
paths. -/
theorem analyze_root_cause_ranking_stable (G : Graph) (ns : List Char) :
    List.Sorted (fun a b : Char × Nat => b.2 ≤ a.2) (analyze_root_cause G ns)
    ∧ (∀ v : Nat, (analyze_root_cause G ns).filter (fun p => decide (p.2 = v))
        = (countOcc (rootCausePaths G ns)).filter (fun p => decide (p.2 = v)))
    ∧ (countOcc (rootCausePaths G ns)).map Prod.fst
        = firstOccs ((rootCausePaths G ns).map (fun p => p.getLastD 'A')) :=
  ⟨sorted_sortDesc _, fun v => filter_sortDesc v _, countOcc_keys _⟩

theorem rootCausePaths_def (G : Graph) (ns : List Char) :
    rootCausePaths G ns =
      if (collectPaths G ns).length = 1 then [(collectPaths G ns).getD 0 []]
      else queueFilter (collectPaths G ns) := rfl

theorem dfsPaths_last (es : List (Char × Char)) : ∀ (fuel : Nat) (visited : List Char)
    (u t : Char), ∀ p ∈ dfsPaths es fuel visited u t, p ≠ [] ∧ p.getLastD 'A' = t
  | 0, _, _, _, p, hp => by simp [dfsPaths] at hp
  | fuel + 1, visited, u, t, p, hp => by
    unfold dfsPaths at hp
    split at hp
    · rename_i h
      rw [List.mem_singleton] at hp
      subst hp
      exact ⟨by simp, by simp⟩
    · obtain ⟨v, hv, hpv⟩ := List.mem_flatMap.mp hp
      obtain ⟨q, hq, rfl⟩ := List.mem_map.mp hpv
      obtain ⟨hne, hlast⟩ := dfsPaths_last es fuel (u :: visited) v t q hq
      refine ⟨by simp, ?_⟩
      rw [List.getLastD_cons, getLastD_eq_of_ne_nil hne u 'A', hlast]

theorem all_simple_paths_last (G : Graph) (s t : Char) :
    ∀ p ∈ all_simple_paths G s t, p ≠ [] ∧ p.getLastD 'A' = t := by
  unfold all_simple_paths
  split
  · simp
  · exact fun p hp => dfsPaths_last G.edges G.nodes.length [] s t p hp

theorem queueFilter_subset : ∀ S : List (List Char), queueFilter S ⊆ S
  | [] => by simp [queueFilter]
  | p :: rest => by
    rw [queueFilter]
    intro x hx
    rcases List.mem_append.mp hx with hx | hx
    · split at hx
      · rw [List.mem_singleton] at hx
        exact hx ▸ List.mem_cons_self p rest
      · simp at hx
    · exact List.mem_cons_of_mem p (queueFilter_subset rest hx)

theorem rootCausePaths_subset (G : Graph) (ns : List Char) :
    rootCausePaths G ns ⊆ collectPaths G ns := by
  rw [rootCausePaths_def]
  split
  · rename_i h
    obtain ⟨a, ha⟩ := List.length_eq_one.mp h
    rw [ha]
    simp
  · exact queueFilter_subset _

/-- C9: every (label, count) pair returned by analyze carries a label that is
itself one of the flagged issue nodes (the terminal node of a collected path
is `issueNodes[j]` of its pair), labels are pairwise distinct in the result,
and every count is at least 1. -/
theorem analyze_root_cause_result_wellformed (G : Graph) (ns : List Char) :
    ((analyze_root_cause G ns).map Prod.fst).Nodup
    ∧ ∀ p ∈ analyze_root_cause G ns, p.1 ∈ ns ∧ 1 ≤ p.2 := by
  have hperm : (analyze_root_cause G ns).Perm (countOcc (rootCausePaths G ns)) :=
    sortDesc_perm _
  constructor
  · exact ((hperm.map Prod.fst).nodup_iff).mpr
      (by rw [countOcc_keys]; exact firstOccs_nodup _)
  · intro p hp
    have hp' : p ∈ countOcc (rootCausePaths G ns) := hperm.mem_iff.mp hp
    refine ⟨?_, countOcc_counts_pos _ p hp'⟩
    have hkey : p.1 ∈ (countOcc (rootCausePaths G ns)).map Prod.fst :=
      List.mem_map_of_mem _ hp'
    rw [countOcc_keys] at hkey
    obtain ⟨q, hq, hlast⟩ := List.mem_map.mp (firstOccs_subset _ hkey)
    have hqc : q ∈ collectPaths G ns := rootCausePaths_subset G ns hq
    rw [collectPaths_eq G ns] at hqc
    obtain ⟨ij, hij, hqij⟩ := List.mem_flatMap.mp hqc
    obtain ⟨_, hjn⟩ := mem_pairUp.mp (show (ij.1, ij.2) ∈ _ from hij)
    obtain ⟨_, hl⟩ := all_simple_paths_last G _ _ q hqij
    rw [← hlast, hl]
    exact List.getD_eq_getElem ns 'A' hjn ▸ List.getElem_mem hjn

/-! ### Depth clamping (C8) -/

theorem generate_dag_def (n d : Nat) (rand : Nat → Nat) :
    generate_dag n d rand =
      match backboneLoop (letters.take n) d rand (List.range' 1 (n - 1)) [] 0 with
      | Except.error e => Except.error e
      | Except.ok r1 =>
        match extraLoop (letters.take n) n d rand (List.range n) r1.1 r1.2 with
        | Except.error e => Except.error e
        | Except.ok r2 =>
            Except.ok ⟨letters.take n, r2.1,
              layersFrom 0 (topological_generations r2.1 (letters.take n).length
                (letters.take n))⟩ := rfl

theorem backboneLoop_depth_clamp (nodes : List Char) (n d : Nat) (rand : Nat → Nat)
    (h1 : 1 ≤ n) (hd : n ≤ d) :
    ∀ is : List Nat, (∀ i ∈ is, i < n) → ∀ es pos,
      backboneLoop nodes d rand is es pos = backboneLoop nodes (n - 1) rand is es pos
  | [], _, es, pos => rfl
  | i :: rest, hmem, es, pos => by
    have hi : i < n := hmem i (List.mem_cons_self _ _)
    have hw : i - d = i - (n - 1) := by omega
    rw [backboneLoop, backboneLoop, hw]
    cases pyChoice ((nodes.take i).drop (i - (n - 1))) (rand pos) with
    | error e => rfl
    | ok parent =>
      cases pyIndex nodes i with
      | error e => rfl
      | ok ni =>
        exact backboneLoop_depth_clamp nodes n d rand h1 hd rest
          (fun j hj => hmem j (List.mem_cons_of_mem _ hj)) _ _

theorem extraLoop_depth_clamp (nodes : List Char) (n d : Nat) (rand : Nat → Nat)
    (h1 : 1 ≤ n) (hd : n ≤ d) :
    ∀ is : List Nat, ∀ es pos,
      extraLoop nodes n d rand is es pos = extraLoop nodes n (n - 1) rand is es pos
  | [], es, pos => rfl
  | i :: rest, es, pos => by
    have hw : min n (i + d + 1) = min n (i + (n - 1) + 1) := by omega
    rw [extraLoop, extraLoop, hw]
    cases extraInner nodes i rand
        (rand pos % (((nodes.take (min n (i + (n - 1) + 1))).drop (i + 1)).length + 1))
        ((nodes.take (min n (i + (n - 1) + 1))).drop (i + 1)) es (pos + 1) with
    | error e => rfl
    | ok r => exact extraLoop_depth_clamp nodes n d rand h1 hd rest _ _

/-- C8: for `nodeCount ≥ 2` and `maxDepth ≥ nodeCount`, generate_dag consumes
the random stream identically to, and produces exactly the same result as,
`maxDepth = nodeCount − 1`, because the parent and child windows clamp at the
node-array bounds. -/
theorem generate_dag_depth_clamp (n d : Nat) (rand : Nat → Nat)
    (h2 : 2 ≤ n) (hd : n ≤ d) :
    generate_dag n d rand = generate_dag n (n - 1) rand := by
  have h1 : 1 ≤ n := by omega
  rw [generate_dag_def, generate_dag_def]
  rw [backboneLoop_depth_clamp (letters.take n) n d rand h1 hd (List.range' 1 (n - 1))
    (fun i hi => by
      have := List.mem_range'_1.mp hi
      omega)]
  cases backboneLoop (letters.take n) (n - 1) rand (List.range' 1 (n - 1)) [] 0 with
  | error e => rfl
  | ok r1 =>
    dsimp only
    rw [extraLoop_depth_clamp (letters.take n) n d rand h1 hd (List.range n) r1.1 r1.2]

theorem generate_dag_depth_clamp_witness :
    generate_dag 3 5 (fun _ => 0) = generate_dag 3 2 (fun _ => 0) :=
  generate_dag_depth_clamp 3 5 (fun _ => 0) (by decide) (by decide)

/-! ### Edge monotonicity and acyclicity (C4) -/

/-- Every edge joins a lower-index node of `nodes` to a higher-index one. -/
def MonoEdges (nodes : List Char) (es : List (Char × Char)) : Prop :=
  ∀ u v : Char, (u, v) ∈ es → ∃ i j : Nat, i < j ∧ j < nodes.length ∧
    nodes.getD i 'A' = u ∧ nodes.getD j 'A' = v

theorem mem_take_drop_index {x : Char} {l : List Char} {a b : Nat}
    (h : x ∈ (l.take b).drop a) :
    ∃ m, a ≤ m ∧ m < b ∧ m < l.length ∧ l.getD m 'A' = x := by
  obtain ⟨k, hk, hkx⟩ := List.mem_iff_getElem.mp h
  have hk' := hk
  rw [List.length_drop, List.length_take] at hk'
  have hm : a + k < b ∧ a + k < l.length := by
    constructor <;> omega
  refine ⟨a + k, Nat.le_add_right _ _, hm.1, hm.2, ?_⟩
  rw [List.getD_eq_getElem l 'A' hm.2]
  rw [List.getElem_drop] at hkx
  rw [List.getElem_take] at hkx
  exact hkx

theorem backboneLoop_mono (nodes : List Char) (d : Nat) (rand : Nat → Nat) :
    ∀ (is : List Nat) (es : List (Char × Char)) (pos : Nat)
      (es' : List (Char × Char)) (pos' : Nat),
      backboneLoop nodes d rand is es pos = .ok (es', pos') →
      MonoEdges nodes es → MonoEdges nodes es'
  | [], es, pos, es', pos', h, hm => by
    rw [backboneLoop] at h
    cases h
    exact hm
  | i :: rest, es, pos, es', pos', h, hm => by
    rw [backboneLoop] at h
    cases hc : pyChoice ((nodes.take i).drop (i - d)) (rand pos) with
    | error e => rw [hc] at h; exact Except.noConfusion h
    | ok parent =>
      rw [hc] at h
      cases hni : pyIndex nodes i with
      | error e => rw [hni] at h; exact Except.noConfusion h
      | ok ni =>
        rw [hni] at h
        obtain ⟨hi, hgd⟩ := pyIndex_ok hni
        obtain ⟨m, _, hmi, hml, hgm⟩ := mem_take_drop_index (pyChoice_ok_mem hc)
        refine backboneLoop_mono nodes d rand rest _ _ _ _ h ?_
        intro u v huv
        rcases mem_addEdge.mp huv with huv | huv
        · exact hm u v huv
        · simp only [Prod.mk.injEq] at huv
          obtain ⟨hu, hv⟩ := huv
          exact ⟨m, i, hmi, hi, by rw [hgm, ← hu], by rw [hgd, ← hv]⟩

theorem extraInner_mono (nodes : List Char) (i : Nat) (rand : Nat → Nat) :
    ∀ (k : Nat) (pc : List Char) (es : List (Char × Char)) (pos : Nat)
      (es' : List (Char × Char)) (pos' : Nat),
      extraInner nodes i rand k pc es pos = .ok (es', pos') →
      (∀ x ∈ pc, ∃ j, i < j ∧ j < nodes.length ∧ nodes.getD j 'A' = x) →
      MonoEdges nodes es → MonoEdges nodes es'
  | 0, pc, es, pos, es', pos', h, _, hm => by
    rw [extraInner] at h
    cases h
    exact hm
  | k + 1, pc, es, pos, es', pos', h, hpc, hm => by
    rw [extraInner] at h
    split at h
    · exact extraInner_mono nodes i rand k pc es pos es' pos' h hpc hm
    · cases hc : pyChoice pc (rand pos) with
      | error e => rw [hc] at h; exact Except.noConfusion h
      | ok child =>
        rw [hc] at h
        cases hni : pyIndex nodes i with
        | error e => rw [hni] at h; exact Except.noConfusion h
        | ok ni =>
          rw [hni] at h
          obtain ⟨hi, hgd⟩ := pyIndex_ok hni
          obtain ⟨j, hij, hjl, hgj⟩ := hpc child (pyChoice_ok_mem hc)
          refine extraInner_mono nodes i rand k _ _ _ _ _ h
            (fun x hx => hpc x (List.erase_subset _ _ hx)) ?_
          intro u v huv
          rcases mem_addEdge.mp huv with huv | huv
          · exact hm u v huv
          · simp only [Prod.mk.injEq] at huv
            obtain ⟨hu, hv⟩ := huv
            exact ⟨i, j, hij, hjl, by rw [hgd, ← hu], by rw [hgj, ← hv]⟩

theorem extraLoop_mono (nodes : List Char) (n d : Nat) (rand : Nat → Nat) :
    ∀ (is : List Nat) (es : List (Char × Char)) (pos : Nat)
      (es' : List (Char × Char)) (pos' : Nat),
      extraLoop nodes n d rand is es pos = .ok (es', pos') →
      MonoEdges nodes es → MonoEdges nodes es'
  | [], es, pos, es', pos', h, hm => by
    rw [extraLoop] at h
    cases h
    exact hm
  | i :: rest, es, pos, es', pos', h, hm => by
    rw [extraLoop] at h
    cases hx : extraInner nodes i rand
        (rand pos % (((nodes.take (min n (i + d + 1))).drop (i + 1)).length + 1))
        ((nodes.take (min n (i + d + 1))).drop (i + 1)) es (pos + 1) with
    | error e => rw [hx] at h; exact Except.noConfusion h
    | ok r =>
      rw [hx] at h
      have hmr : MonoEdges nodes r.1 := by
        refine extraInner_mono nodes i rand _ _ _ _ _ _ hx ?_ hm
        intro x hxm
        obtain ⟨m, ham, _, hml, hgm⟩ := mem_take_drop_index hxm
        exact ⟨m, by omega, hml, hgm⟩
      exact extraLoop_mono nodes n d rand rest _ _ _ _ h hmr

theorem generate_dag_shape (n d : Nat) (rand : Nat → Nat) (g : Graph)
    (h : generate_dag n d rand = .ok g) :
    g.nodes = letters.take n ∧ MonoEdges g.nodes g.edges ∧
    g.layers = layersFrom 0 (topological_generations g.edges g.nodes.length g.nodes) := by
  rw [generate_dag_def] at h
  cases hb : backboneLoop (letters.take n) d rand (List.range' 1 (n - 1)) [] 0 with
  | error e => rw [hb] at h; exact Except.noConfusion h
  | ok r1 =>
    rw [hb] at h
    dsimp only at h
    cases hx : extraLoop (letters.take n) n d rand (List.range n) r1.1 r1.2 with
    | error e => rw [hx] at h; exact Except.noConfusion h
    | ok r2 =>
      rw [hx] at h
      dsimp only at h
      injection h with h
      subst h
      refine ⟨rfl, ?_, rfl⟩
      have hm1 : MonoEdges (letters.take n) r1.1 :=
        backboneLoop_mono (letters.take n) d rand _ _ _ _ _ hb
          (fun u v huv => absurd huv (List.not_mem_nil _))
      exact extraLoop_mono (letters.take n) n d rand _ _ _ _ _ hx hm1

theorem letters_getD_toNat : ∀ i : Nat, i < 26 → (letters.getD i 'A').toNat = 65 + i := by
  decide

theorem getD_take_eq {l : List Char} {n i : Nat} (h : i < (l.take n).length) :
    (l.take n).getD i 'A' = l.getD i 'A' := by
  have h' : i < l.length := by
    rw [List.length_take] at h
    omega
  rw [List.getD_eq_getElem _ 'A' h, List.getD_eq_getElem _ 'A' h', List.getElem_take]

theorem mono_edges_toNat_lt {n : Nat} {es : List (Char × Char)}
    (hm : MonoEdges (letters.take n) es) :
    ∀ u v : Char, (u, v) ∈ es → u.toNat < v.toNat := by
  intro u v huv
  obtain ⟨i, j, hij, hjl, hgu, hgv⟩ := hm u v huv
  have hil : i < (letters.take n).length := Nat.lt_trans hij hjl
  have h26 : (letters.take n).length ≤ 26 := by
    rw [List.length_take]
    have : letters.length = 26 := by decide
    omega
  rw [getD_take_eq hil] at hgu
  rw [getD_take_eq hjl] at hgv
  rw [← hgu, ← hgv, letters_getD_toNat i (by omega), letters_getD_toNat j (by omega)]
  omega

theorem chain_toNat_lt {es : List (Char × Char)}
    (hlt : ∀ u v : Char, (u, v) ∈ es → u.toNat < v.toNat) :
    ∀ (a : Char) (l : List Char), List.Chain (fun x y => (x, y) ∈ es) a l →
      ∀ b ∈ l, a.toNat < b.toNat
  | _, [], _, b, hb => absurd hb (List.not_mem_nil _)
  | a, c :: l, hch, b, hb => by
    rw [List.chain_cons] at hch
    obtain ⟨hac, hcl⟩ := hch
    rcases List.mem_cons.mp hb with rfl | hb
    · exact hlt a b hac
    · exact Nat.lt_trans (hlt a c hac) (chain_toNat_lt hlt c l hcl b hb)

theorem mem_of_getLastQ : ∀ {l : List Char} {a : Char}, l.getLast? = some a → a ∈ l
  | [], a, h => by simp at h
  | [x], a, h => by
    simp only [List.getLast?_singleton, Option.some.injEq] at h
    simp [h]
  | x :: y :: t, a, h => by
    rw [List.getLast?_cons_cons] at h
    exact List.mem_cons_of_mem x (mem_of_getLastQ h)

/-- C4: for every argument combination and random stream for which
generate_dag returns a graph, every edge (both backbone and extra) runs from a
lower-index node to a higher-index node in generation order, and consequently
the graph has no directed cycle (no nonempty edge chain returns to its start). -/
theorem generate_dag_edges_monotone_acyclic (n d : Nat) (rand : Nat → Nat) (g : Graph)
    (h : generate_dag n d rand = .ok g) :
    (∀ u v : Char, (u, v) ∈ g.edges → ∃ i j : Nat, i < j ∧ j < g.nodes.length ∧
        g.nodes.getD i 'A' = u ∧ g.nodes.getD j 'A' = v)
    ∧ ∀ (a : Char) (l : List Char),
        List.Chain (fun x y => (x, y) ∈ g.edges) a l → l ≠ [] → l.getLast? ≠ some a := by
  obtain ⟨hn, hm, -⟩ := generate_dag_shape n d rand g h
  refine ⟨hm, ?_⟩
  intro a l hch _ hlast
  have hlt : ∀ u v : Char, (u, v) ∈ g.edges → u.toNat < v.toNat :=
    mono_edges_toNat_lt (hn ▸ hm)
  have := chain_toNat_lt hlt a l hch a (mem_of_getLastQ hlast)
  omega

/-! ### Layer consistency (C5) -/

theorem mem_zeroOf {E : List (Char × Char)} {rem : List Char} {x : Char} :
    x ∈ zeroOf E rem ↔ x ∈ rem ∧ ∀ u ∈ rem, (u, x) ∉ E := by
  unfold zeroOf
  rw [List.mem_filter]
  simp [List.all_eq_true]

theorem exists_min_toNat : ∀ l : List Char, l ≠ [] → ∃ x ∈ l, ∀ y ∈ l, x.toNat ≤ y.toNat
  | [], h => absurd rfl h
  | [a], _ => ⟨a, by simp, by simp⟩
  | a :: b :: t, _ => by
    obtain ⟨x, hx, hmin⟩ := exists_min_toNat (b :: t) (by simp)
    by_cases hax : a.toNat ≤ x.toNat
    · refine ⟨a, List.mem_cons_self _ _, fun y hy => ?_⟩
      rcases List.mem_cons.mp hy with rfl | hy
      · exact Nat.le_refl _
      · exact Nat.le_trans hax (hmin y hy)
    · refine ⟨x, List.mem_cons_of_mem _ hx, fun y hy => ?_⟩
      rcases List.mem_cons.mp hy with rfl | hy
      · omega
      · exact hmin y hy

theorem zeroOf_ne_nil {E : List (Char × Char)} {rem : List Char}
    (hlt : ∀ u v : Char, (u, v) ∈ E → u.toNat < v.toNat) (hne : rem ≠ []) :
    zeroOf E rem ≠ [] := by
  obtain ⟨x, hx, hmin⟩ := exists_min_toNat rem hne
  intro h0
  have hxz : x ∈ zeroOf E rem := by
    rw [mem_zeroOf]
    refine ⟨hx, fun u hu hux => ?_⟩
    have := hlt u x hux
    have := hmin u hu
    omega
  rw [h0] at hxz
  exact List.not_mem_nil x hxz

theorem topoGen_mem (E : List (Char × Char)) : ∀ (fuel : Nat) (rem : List Char)
    (k : Nat) (x : Char),
    x ∈ (topological_generations E fuel rem).getD k [] → x ∈ rem
  | 0, rem, k, x, hx => by simp [topological_generations] at hx
  | fuel + 1, rem, k, x, hx => by
    rw [topological_generations] at hx
    split at hx
    · simp at hx
    · match k, hx with
      | 0, hx =>
        rw [List.getD_cons_zero] at hx
        exact (mem_zeroOf.mp hx).1
      | k + 1, hx =>
        rw [List.getD_cons_succ] at hx
        exact List.mem_of_mem_filter (topoGen_mem E fuel _ k x hx)

theorem topoGen_cover (E : List (Char × Char))
    (hlt : ∀ u v : Char, (u, v) ∈ E → u.toNat < v.toNat) :
    ∀ (fuel : Nat) (rem : List Char), rem.length ≤ fuel → ∀ x ∈ rem,
      ∃ k, k < (topological_generations E fuel rem).length ∧
        x ∈ (topological_generations E fuel rem).getD k []
  | 0, rem, hle, x, hx => by
    rw [Nat.le_zero, List.length_eq_zero] at hle
    subst hle
    exact absurd hx (List.not_mem_nil x)
  | fuel + 1, rem, hle, x, hx => by
    have hne : rem ≠ [] := fun h0 => by
      subst h0
      exact List.not_mem_nil x hx
    have hz := zeroOf_ne_nil hlt hne
    rw [topological_generations]
    rw [if_neg (by simpa [List.isEmpty_iff] using hz)]
    by_cases hxz : x ∈ zeroOf E rem
    · exact ⟨0, by simp, by rw [List.getD_cons_zero]; exact hxz⟩
    · have hx' : x ∈ rem.filter (fun y => !(decide (y ∈ zeroOf E rem))) := by
        rw [List.mem_filter]
        exact ⟨hx, by simp [hxz]⟩
      have hlen : (rem.filter (fun y => !(decide (y ∈ zeroOf E rem)))).length ≤ fuel := by
        have hlt' : (rem.filter (fun y => !(decide (y ∈ zeroOf E rem)))).length < rem.length := by
          rw [List.length_filter_lt_length_iff_exists]
          obtain ⟨z, hz'⟩ := List.exists_mem_of_ne_nil _ hz
          exact ⟨z, (mem_zeroOf.mp hz').1, by simp [hz']⟩
        omega
      obtain ⟨k, hk, hmem⟩ := topoGen_cover E hlt fuel _ hlen x hx'
      exact ⟨k + 1, by simpa using hk, by rw [List.getD_cons_succ]; exact hmem⟩

theorem topoGen_edge_lt (E : List (Char × Char)) : ∀ (fuel : Nat) (rem : List Char)
    (u v : Char), (u, v) ∈ E → ∀ j k : Nat,
    u ∈ (topological_generations E fuel rem).getD j [] →
    v ∈ (topological_generations E fuel rem).getD k [] → j < k
  | 0, rem, u, v, huv, j, k, hu, hv => by simp [topological_generations] at hu
  | fuel + 1, rem, u, v, huv, j, k, hu, hv => by
    rw [topological_generations] at hu hv
    by_cases hz : (zeroOf E rem).isEmpty = true
    · rw [if_pos hz] at hu
      simp at hu
    · rw [if_neg hz] at hu hv
      match k, hv with
      | 0, hv =>
        rw [List.getD_cons_zero] at hv
        obtain ⟨-, hnov⟩ := mem_zeroOf.mp hv
        exfalso
        match j, hu with
        | 0, hu =>
          rw [List.getD_cons_zero] at hu
          exact hnov u (mem_zeroOf.mp hu).1 huv
        | j + 1, hu =>
          rw [List.getD_cons_succ] at hu
          exact hnov u (List.mem_of_mem_filter (topoGen_mem E fuel _ j u hu)) huv
      | k + 1, hv =>
        rw [List.getD_cons_succ] at hv
        match j, hu with
        | 0, hu => omega
        | j + 1, hu =>
          rw [List.getD_cons_succ] at hu
          have := topoGen_edge_lt E fuel _ u v huv j k hu hv
          omega

theorem lookup_map_const (i : Nat) (x : Char) : ∀ gen : List Char,
    List.lookup x (gen.map (fun c => (c, i))) = if x ∈ gen then some i else none
  | [] => by simp
  | a :: gen => by
    have ih := lookup_map_const i x gen
    by_cases hxa : x = a
    · subst hxa
      simp [List.lookup]
    · have hb : (x == a) = false := by
        simp [hxa]
      simp [List.lookup, hb, ih, List.mem_cons, hxa]

theorem lookup_append_char (x : Char) : ∀ l1 l2 : List (Char × Nat),
    List.lookup x (l1 ++ l2) =
      match List.lookup x l1 with
      | some b => some b
      | none => List.lookup x l2
  | [], l2 => by simp [List.lookup]
  | (k, b) :: l1, l2 => by
    by_cases hxk : x = k
    · subst hxk
      simp [List.lookup]
    · have hb : (x == k) = false := by
        simp [hxk]
      simp [List.lookup, hb, lookup_append_char x l1 l2]

theorem lookup_layersFrom : ∀ (gens : List (List Char)) (base : Nat) (x : Char) (k : Nat),
    k < gens.length → x ∈ gens.getD k [] →
    ∃ k', List.lookup x (layersFrom base gens) = some (base + k') ∧ k' < gens.length ∧
      x ∈ gens.getD k' []
  | [], base, x, k, hk, _ => absurd hk (by simp)
  | gen :: rest, base, x, k, hk, hx => by
    rw [layersFrom, lookup_append_char, lookup_map_const]
    by_cases hg : x ∈ gen
    · rw [if_pos hg]
      exact ⟨0, by simp, by simp, by rw [List.getD_cons_zero]; exact hg⟩
    · rw [if_neg hg]
      match k, hx with
      | 0, hx =>
        rw [List.getD_cons_zero] at hx
        exact absurd hx hg
      | k + 1, hx =>
        rw [List.getD_cons_succ] at hx
        obtain ⟨k', hl, hk', hx'⟩ :=
          lookup_layersFrom rest (base + 1) x k (by simpa using hk) hx
        refine ⟨k' + 1, ?_, by simpa using hk', by rw [List.getD_cons_succ]; exact hx'⟩
        rw [hl, show base + 1 + k' = base + (k' + 1) by omega]

/-- C5: after generate_dag assigns each node's layer from its topological
generation, every edge `(u, v)` of the produced graph satisfies
`layer(u) < layer(v)` (both ends have an assigned layer). -/
theorem generate_dag_layers_monotone (n d : Nat) (rand : Nat → Nat) (g : Graph)
    (h : generate_dag n d rand = .ok g) :
    ∀ u v : Char, (u, v) ∈ g.edges →
      ∃ lu lv : Nat, List.lookup u g.layers = some lu ∧
        List.lookup v g.layers = some lv ∧ lu < lv := by
  obtain ⟨hn, hm, hl⟩ := generate_dag_shape n d rand g h
  intro u v huv
  have hlt : ∀ a b : Char, (a, b) ∈ g.edges → a.toNat < b.toNat :=
    mono_edges_toNat_lt (hn ▸ hm)
  obtain ⟨i, j, hij, hjl, hgu, hgv⟩ := hm u v huv
  have hu : u ∈ g.nodes := by
    rw [← hgu, List.getD_eq_getElem _ 'A' (Nat.lt_trans hij hjl)]
    exact List.getElem_mem _
  have hv : v ∈ g.nodes := by
    rw [← hgv, List.getD_eq_getElem _ 'A' hjl]
    exact List.getElem_mem _
  obtain ⟨ku, hku, hmu⟩ :=
    topoGen_cover g.edges hlt g.nodes.length g.nodes (Nat.le_refl _) u hu
  obtain ⟨kv, hkv, hmv⟩ :=
    topoGen_cover g.edges hlt g.nodes.length g.nodes (Nat.le_refl _) v hv
  obtain ⟨ku', hlu, hku', hmu'⟩ := lookup_layersFrom _ 0 u ku hku hmu
  obtain ⟨kv', hlv, hkv', hmv'⟩ := lookup_layersFrom _ 0 v kv hkv hmv
  have hord : ku' < kv' :=
    topoGen_edge_lt g.edges g.nodes.length g.nodes u v huv ku' kv' hmu' hmv'
  rw [hl]
  exact ⟨0 + ku', 0 + kv', hlu, hlv, by omega⟩

/-! ### Witness graph for the generator claims -/

/-- The graph produced by `generate_dag 4 2` with the constant-zero stream. -/
def sampleGraph : Graph :=
  ⟨['A', 'B', 'C', 'D'], [('A', 'B'), ('A', 'C'), ('B', 'D')],
    [('A', 0), ('B', 1), ('C', 1), ('D', 2)]⟩

theorem generate_dag_edges_monotone_acyclic_witness :
    (∀ u v : Char, (u, v) ∈ sampleGraph.edges → ∃ i j : Nat, i < j ∧
        j < sampleGraph.nodes.length ∧
        sampleGraph.nodes.getD i 'A' = u ∧ sampleGraph.nodes.getD j 'A' = v)
    ∧ ∀ (a : Char) (l : List Char),
        List.Chain (fun x y => (x, y) ∈ sampleGraph.edges) a l → l ≠ [] →
          l.getLast? ≠ some a :=
  generate_dag_edges_monotone_acyclic 4 2 (fun _ => 0) sampleGraph (by rfl)

theorem generate_dag_layers_monotone_witness :
    ('A', 'B') ∈ sampleGraph.edges ∧
    ∃ lu lv : Nat, List.lookup 'A' sampleGraph.layers = some lu ∧
      List.lookup 'B' sampleGraph.layers = some lv ∧ lu < lv :=
  ⟨by decide,
   generate_dag_layers_monotone 4 2 (fun _ => 0) sampleGraph (by rfl) 'A' 'B' (by decide)⟩

/-! ### Parameter handling of generate_dag (C2) -/

theorem extraInner_nil (nodes : List Char) (i : Nat) (rand : Nat → Nat) :
    ∀ (k : Nat) (es : List (Char × Char)) (pos : Nat),
      extraInner nodes i rand k [] es pos = .ok (es, pos)
  | 0, es, pos => rfl
  | k + 1, es, pos => extraInner_nil nodes i rand k es pos

theorem generate_dag_zero (d : Nat) (rand : Nat → Nat) :
    generate_dag 0 d rand = .ok ⟨[], [], []⟩ := rfl

theorem generate_dag_one (d : Nat) (rand : Nat → Nat) :
    generate_dag 1 d rand = .ok ⟨['A'], [], [('A', 0)]⟩ := by
  rw [generate_dag_def]
  have hb : backboneLoop (letters.take 1) d rand (List.range' 1 (1 - 1)) [] 0 =
      .ok ([], 0) := rfl
  rw [hb]
  dsimp only
  rw [show List.range 1 = [0] from rfl, extraLoop]
  have hpc : ((letters.take 1).take (min 1 (0 + d + 1))).drop (0 + 1) = ([] : List Char) := by
    rw [List.take_take]
    have hm : min (min 1 (0 + d + 1)) 1 = 1 := by omega
    rw [hm]
    rfl
  rw [hpc]
  simp only [List.length_nil, Nat.zero_add, Nat.mod_one]
  rw [extraInner_nil]
  rfl

theorem pyChoice_ok_of_ne_nil {l : List Char} (h : l ≠ []) (r : Nat) :
    ∃ x, pyChoice l r = .ok x := by
  cases l with
  | nil => exact absurd rfl h
  | cons a t => exact ⟨_, rfl⟩

theorem backboneLoop_letters_err (d : Nat) (rand : Nat → Nat) (hd : 1 ≤ d) :
    ∀ (m a : Nat) (es : List (Char × Char)) (pos : Nat), 1 ≤ a → a ≤ 26 → 26 < a + m →
      backboneLoop letters d rand (List.range' a m) es pos = .error .indexError
  | 0, a, es, pos, h1, h2, h3 => by omega
  | m + 1, a, es, pos, h1, h2, h3 => by
    rw [List.range'_succ, backboneLoop]
    have hne : (letters.take a).drop (a - d) ≠ [] := by
      intro h0
      have hlen := congrArg List.length h0
      rw [List.length_drop, List.length_take] at hlen
      have h26 : letters.length = 26 := by decide
      rw [h26] at hlen
      simp only [List.length_nil] at hlen
      omega
    obtain ⟨x, hx⟩ := pyChoice_ok_of_ne_nil hne (rand pos)
    rw [hx]
    by_cases ha : a < 26
    · have hok : pyIndex letters a = .ok (letters.getD a 'A') := by
        rw [pyIndex, if_pos (by
          have h26 : letters.length = 26 := by decide
          omega)]
      rw [hok]
      exact backboneLoop_letters_err d rand hd m (a + 1) _ _ (by omega) (by omega) (by omega)
    · have herr : pyIndex letters a = .error .indexError := by
        rw [pyIndex, if_neg (by
          have h26 : letters.length = 26 := by decide
          omega)]
      rw [herr]

theorem generate_dag_err_large (n d : Nat) (rand : Nat → Nat) (h27 : 27 ≤ n) (hd : 1 ≤ d) :
    generate_dag n d rand = .error .indexError := by
  rw [generate_dag_def]
  have hnodes : letters.take n = letters := by
    apply List.take_of_length_le
    have h26 : letters.length = 26 := by decide
    omega
  rw [hnodes]
  rw [backboneLoop_letters_err d rand hd (n - 1) 1 [] 0 (by omega) (by omega) (by omega)]

theorem generate_dag_err_depth_zero (n : Nat) (rand : Nat → Nat) (h2 : 2 ≤ n) :
    generate_dag n 0 rand = .error .indexError := by
  obtain ⟨k, rfl⟩ : ∃ k, n = k + 2 := ⟨n - 2, by omega⟩
  rw [generate_dag_def]
  rw [show k + 2 - 1 = k + 1 from rfl, List.range'_succ, backboneLoop]
  simp only [Nat.sub_zero]
  have hw : ((letters.take (k + 2)).take 1).drop 1 = ([] : List Char) := by
    rw [List.take_take]
    have hm : min 1 (k + 2) = 1 := by omega
    rw [hm]
    rfl
  rw [hw]
  rfl

/-- C2 counterexample: with `nodeCount = 1 < 2` (shown here with
`maxDepth = 1` and the constant-zero stream) generate_dag returns a graph
instead of reporting any failure, refuting the claim that every invalid
argument combination fails. -/
theorem generate_dag_ok_at_nodeCount_one :
    generate_dag 1 1 (fun _ => 0) = Except.ok ⟨['A'], [], [('A', 0)]⟩ := by rfl

/-- C2 amended: generate_dag performs no parameter validation.  For
`nodeCount < 2` it succeeds and returns a degenerate graph for every maxDepth
and random stream; for `nodeCount ≥ 2` with `maxDepth < 1` it fails with an
IndexError from choosing a parent out of an empty window; for
`nodeCount > 26` (with `maxDepth ≥ 1`) it fails with an IndexError from
indexing past the 26-letter label list.  No InvalidParameter condition
exists. -/
theorem generate_dag_no_param_validation (n d : Nat) (rand : Nat → Nat) :
    (n < 2 → ∃ g : Graph, generate_dag n d rand = .ok g)
    ∧ (2 ≤ n → generate_dag n 0 rand = .error .indexError)
    ∧ (27 ≤ n → 1 ≤ d → generate_dag n d rand = .error .indexError) := by
  refine ⟨fun hn => ?_, fun h2 => generate_dag_err_depth_zero n rand h2,
    fun h27 hd => generate_dag_err_large n d rand h27 hd⟩
  match n, hn with
  | 0, _ => exact ⟨⟨[], [], []⟩, generate_dag_zero d rand⟩
  | 1, _ => exact ⟨⟨['A'], [], [('A', 0)]⟩, generate_dag_one d rand⟩

theorem generate_dag_no_param_validation_witness :
    (∃ g : Graph, generate_dag 1 1 (fun _ => 0) = .ok g)
    ∧ generate_dag 2 0 (fun _ => 0) = .error .indexError
    ∧ generate_dag 27 1 (fun _ => 0) = .error .indexError :=
  ⟨(generate_dag_no_param_validation 1 1 (fun _ => 0)).1 (by omega),
   (generate_dag_no_param_validation 2 0 (fun _ => 0)).2.1 (by omega),
   (generate_dag_no_param_validation 27 1 (fun _ => 0)).2.2 (by omega) (by omega)⟩
